import Mathlib

/-!
Verification of the BOM / time-space-network core of the SIM repository
(`src/models/graph.py`).

Part 1 embeds `create_product_structure_graph`: a two-pass builder that
first accumulates, per part, the set of roles it plays (assembly /
component) across all BOM records, classifies each part, and then inserts
one directed edge per (assembly, component) key with last-write-wins
attribute semantics.  Missing `Assembly` / `Component` / `QuantityPer`
fields abort the build (Python `KeyError`, modelled as `Except.error`);
`Scrap` defaults to 0.

Part 2 embeds `create_time_space_network`: events are stably sorted by
time, upserted into a node map keyed by (node, time), chained
chronologically per original node, and linked causally across each
product-graph edge by a nearest-strictly-later search.
-/

/-- Generic association-list lookup (first entry with the given key),
modelling Python dict / networkx attribute access. -/
def alookup {α β : Type} [DecidableEq α] : List (α × β) → α → Option β
  | [], _ => none
  | (a, b) :: m, k => if a = k then some b else alookup m k

/-- Generic association-list upsert: replace the entry at the key in place,
or append a fresh entry at the end, modelling Python dict assignment and
networkx `add_node` / `add_edge` overwrite semantics. -/
def upsertA {α β : Type} [DecidableEq α] : List (α × β) → α → β → List (α × β)
  | [], k, v => [(k, v)]
  | (a, b) :: m, k, v => if a = k then (k, v) :: m else (a, b) :: upsertA m k v

/-- Keys of an association list. -/
def keysOf {α β : Type} (m : List (α × β)) : List α := m.map Prod.fst

/-- Last element of a list satisfying a predicate (the "last record in
input order" of the overwrite law). -/
def lastMatch {α : Type} (p : α → Bool) : List α → Option α
  | [] => none
  | x :: xs =>
    match lastMatch p xs with
    | some y => some y
    | none => if p x then some x else none

theorem alookup_upsertA {α β : Type} [DecidableEq α] (m : List (α × β)) (k : α) (v : β)
    (k' : α) :
    alookup (upsertA m k v) k' = if k' = k then some v else alookup m k' := by
  induction m with
  | nil =>
    by_cases h : k' = k
    · simp [upsertA, alookup, h]
    · have h2 : ¬ (k = k') := fun hh => h hh.symm
      simp [upsertA, alookup, h, h2]
  | cons ab m ih =>
    obtain ⟨a, b⟩ := ab
    by_cases hak : a = k
    · subst hak
      by_cases hk : k' = a
      · subst hk
        simp [upsertA, alookup]
      · have h2 : ¬ (a = k') := fun hh => hk hh.symm
        simp [upsertA, alookup, hk, h2]
    · by_cases hk : k' = a
      · subst hk
        have h2 : ¬ (k' = k) := fun hh => hak (hh.symm.trans rfl).symm
        simp [upsertA, alookup, hak, h2]
      · have h2 : ¬ (a = k') := fun hh => hk hh.symm
        simp [upsertA, alookup, hak, h2, ih]

theorem keysOf_upsertA {α β : Type} [DecidableEq α] (m : List (α × β)) (k : α) (v : β) :
    keysOf (upsertA m k v) = if k ∈ keysOf m then keysOf m else keysOf m ++ [k] := by
  induction m with
  | nil => simp [upsertA, keysOf]
  | cons ab m ih =>
    obtain ⟨a, b⟩ := ab
    by_cases hak : a = k
    · subst hak
      simp [upsertA, keysOf]
    · have hka : ¬ (k = a) := fun hh => hak hh.symm
      simp only [upsertA, if_neg hak, keysOf, List.map_cons] at ih ⊢
      rw [ih]
      by_cases hmem : k ∈ List.map Prod.fst m
      · simp [List.mem_cons, hka, hmem]
      · simp [List.mem_cons, hka, hmem]

theorem nodup_keys_upsertA {α β : Type} [DecidableEq α] (m : List (α × β)) (k : α) (v : β)
    (h : (keysOf m).Nodup) : (keysOf (upsertA m k v)).Nodup := by
  rw [keysOf_upsertA]
  by_cases hmem : k ∈ keysOf m
  · simpa [hmem] using h
  · simp only [hmem, if_false]
    refine List.Nodup.append h (List.nodup_singleton k) ?_
    intro x hx hx1
    rcases List.mem_singleton.mp hx1 with rfl
    exact hmem hx

theorem isSome_alookup {α β : Type} [DecidableEq α] (m : List (α × β)) (k : α) :
    (alookup m k).isSome = true ↔ k ∈ keysOf m := by
  induction m with
  | nil => simp [alookup, keysOf]
  | cons ab m ih =>
    obtain ⟨a, b⟩ := ab
    by_cases hk : a = k
    · subst hk
      simp [alookup, keysOf]
    · have hka : ¬ (k = a) := fun hh => hk hh.symm
      simpa [alookup, hk, keysOf, hka] using ih

theorem mem_of_alookup_eq_some {α β : Type} [DecidableEq α] (m : List (α × β)) (k : α)
    (v : β) (h : alookup m k = some v) : (k, v) ∈ m := by
  induction m with
  | nil => simp [alookup] at h
  | cons ab m ih =>
    obtain ⟨a, b⟩ := ab
    by_cases hk : a = k
    · subst hk
      simp [alookup] at h
      simp [h]
    · simp [alookup, hk] at h
      exact List.mem_cons_of_mem _ (ih h)

theorem alookup_eq_some_of_mem {α β : Type} [DecidableEq α] (m : List (α × β)) (k : α)
    (v : β) (hnd : (keysOf m).Nodup) (h : (k, v) ∈ m) : alookup m k = some v := by
  induction m with
  | nil => simp at h
  | cons ab m ih =>
    obtain ⟨a, b⟩ := ab
    simp only [keysOf, List.map_cons, List.nodup_cons] at hnd
    rcases List.mem_cons.mp h with heq | hm
    · rw [Prod.mk.injEq] at heq
      simp [alookup, heq.1, heq.2]
    · have hak : a ≠ k := by
        rintro rfl
        exact hnd.1 (List.mem_map.mpr ⟨(a, v), hm, rfl⟩)
      simpa [alookup, hak] using ih hnd.2 hm

theorem mem_iff_alookup {α β : Type} [DecidableEq α] (m : List (α × β)) (k : α) (v : β)
    (hnd : (keysOf m).Nodup) : (k, v) ∈ m ↔ alookup m k = some v :=
  ⟨alookup_eq_some_of_mem m k v hnd, mem_of_alookup_eq_some m k v⟩

theorem nodup_map_inj {α β : Type} (l : List α) (f : α → β) (h : (l.map f).Nodup) :
    ∀ x ∈ l, ∀ y ∈ l, f x = f y → x = y := by
  induction l with
  | nil => simp
  | cons a l ih =>
    simp only [List.map_cons, List.nodup_cons] at h
    intro x hx y hy hfxy
    rcases List.mem_cons.mp hx with hx1 | hx2
    · rcases List.mem_cons.mp hy with hy1 | hy2
      · rw [hx1, hy1]
      · subst hx1
        exact absurd (List.mem_map.mpr ⟨y, hy2, hfxy.symm⟩) h.1
    · rcases List.mem_cons.mp hy with hy1 | hy2
      · subst hy1
        exact absurd (List.mem_map.mpr ⟨x, hx2, hfxy⟩) h.1
      · exact ih h.2 x hx2 y hy2 hfxy

theorem lastMatch_cons_some {α : Type} (p : α → Bool) (a : α) (l : List α) (y : α)
    (h : lastMatch p l = some y) : lastMatch p (a :: l) = some y := by
  rw [lastMatch, h]

theorem lastMatch_cons_none {α : Type} (p : α → Bool) (a : α) (l : List α)
    (h : lastMatch p l = none) : lastMatch p (a :: l) = if p a then some a else none := by
  rw [lastMatch, h]

theorem lastMatch_eq_none {α : Type} (p : α → Bool) (l : List α) :
    lastMatch p l = none ↔ ∀ x ∈ l, p x = false := by
  induction l with
  | nil => simp [lastMatch]
  | cons a l ih =>
    cases hrec : lastMatch p l with
    | some y =>
      rw [lastMatch_cons_some p a l y hrec]
      constructor
      · intro h
        exact Option.noConfusion h
      · intro hall
        have hnone : lastMatch p l = none :=
          ih.mpr fun x hx => hall x (List.mem_cons_of_mem a hx)
        rw [hnone] at hrec
        exact Option.noConfusion hrec
    | none =>
      rw [lastMatch_cons_none p a l hrec]
      by_cases hpa : p a = true
      · rw [if_pos hpa]
        constructor
        · intro h
          exact Option.noConfusion h
        · intro hall
          have := hall a (List.mem_cons_self a l)
          rw [hpa] at this
          exact Bool.noConfusion this
      · rw [if_neg hpa]
        simp only [Bool.not_eq_true] at hpa
        constructor
        · intro _ x hx
          rcases List.mem_cons.mp hx with h1 | h2
          · rw [h1]
            exact hpa
          · exact (ih.mp hrec) x h2
        · intro _
          rfl

theorem lastMatch_mem {α : Type} (p : α → Bool) (l : List α) (y : α)
    (h : lastMatch p l = some y) : y ∈ l ∧ p y = true := by
  induction l with
  | nil => exact Option.noConfusion h
  | cons a l ih =>
    cases hrec : lastMatch p l with
    | some z =>
      rw [lastMatch_cons_some p a l z hrec] at h
      rcases Option.some.inj h with rfl
      have hz := ih hrec
      exact ⟨List.mem_cons_of_mem a hz.1, hz.2⟩
    | none =>
      rw [lastMatch_cons_none p a l hrec] at h
      by_cases hpa : p a = true
      · rw [if_pos hpa] at h
        rcases Option.some.inj h with rfl
        exact ⟨List.mem_cons_self a l, hpa⟩
      · rw [if_neg hpa] at h
        exact Option.noConfusion h

/-- Node role in the product structure graph, from the classification in
`create_product_structure_graph`. -/
inductive Role
  | assembly
  | subassembly
  | component
deriving DecidableEq, Repr

/-- One BOM record.  Fields are optional to model Python dict access:
`Assembly`, `Component`, `QuantityPer` are read with `record[...]`
(KeyError when missing), while `Scrap` is read with `.get('Scrap', 0)`. -/
structure BOMRecord where
  assembly : Option String
  component : Option String
  quantityPer : Option ℚ
  scrap : Option ℚ
deriving DecidableEq, Repr

/-- Role-evidence map: part identifier to (plays-assembly, plays-component),
modelling the `node_roles` dict of sets. -/
abbrev RoleMap := List (String × (Bool × Bool))

/-- Record one role sighting for a part, modelling
`node_roles[part].add('assembly')` (for `isAsm = true`) or
`node_roles[part].add('component')` (for `isAsm = false`), with the key
initialised on first sighting. -/
def addRole : RoleMap → String → Bool → RoleMap
  | [], p, isAsm => [(p, (isAsm, !isAsm))]
  | (q, ac) :: m, p, isAsm =>
    if q = p then (q, (ac.1 || isAsm, ac.2 || !isAsm)) :: m
    else (q, ac) :: addRole m p isAsm

/-- First pass of `create_product_structure_graph`: scan every record and
accumulate the set of roles each part plays.  A record whose `Assembly` or
`Component` field is missing raises (Python `KeyError`). -/
def rolesOf : List BOMRecord → RoleMap → Except String RoleMap
  | [], m => Except.ok m
  | r :: rs, m =>
    match r.assembly, r.component with
    | some a, some c => rolesOf rs (addRole (addRole m a true) c false)
    | _, _ => Except.error "MalformedRecord"

/-- Role classification of `create_product_structure_graph`: both roles give
`subassembly`, assembly-only gives `assembly`, otherwise `component`. -/
def classify (asm comp : Bool) : Role :=
  if asm && comp then Role.subassembly
  else if asm then Role.assembly
  else Role.component

/-- Edge map of the product structure graph: (assembly, component) key to
(quantity, scrap) attributes. -/
abbrev PSEdgeMap := List ((String × String) × (ℚ × ℚ))

/-- Second pass of `create_product_structure_graph`: insert one edge per
record via `G.add_edge(assembly, component, quantity=..., scrap=...)`,
which overwrites the attributes of an existing (assembly, component) edge.
`QuantityPer` is a mandatory key (KeyError when missing); `Scrap` defaults
to 0. -/
def edgesOf : List BOMRecord → PSEdgeMap → Except String PSEdgeMap
  | [], m => Except.ok m
  | r :: rs, m =>
    match r.assembly, r.component with
    | some a, some c =>
      match r.quantityPer with
      | some q => edgesOf rs (upsertA m (a, c) (q, r.scrap.getD 0))
      | none => Except.error "MalformedRecord"
    | _, _ => Except.error "MalformedRecord"

/-- Product structure graph: node list with roles, edge map with
quantity/scrap attributes. -/
structure PSGraph where
  nodes : List (String × Role)
  edges : PSEdgeMap
deriving DecidableEq, Repr

/-- Embedding of `create_product_structure_graph` (graph.py lines 5-61):
first pass accumulates role evidence, nodes are then classified and added,
and the second pass inserts/overwrites the edges. -/
def create_product_structure_graph (bom : List BOMRecord) : Except String PSGraph :=
  match rolesOf bom [] with
  | Except.error e => Except.error e
  | Except.ok roleMap =>
    match edgesOf bom [] with
    | Except.error e => Except.error e
    | Except.ok em =>
      Except.ok ⟨roleMap.map (fun pr => (pr.1, classify pr.2.1 pr.2.2)), em⟩

/-- Does the part appear as an assembly in at least one record? -/
def appearsAsAssembly (bom : List BOMRecord) (p : String) : Bool :=
  bom.any (fun r => decide (r.assembly = some p))

/-- Does the part appear as a component in at least one record? -/
def appearsAsComponent (bom : List BOMRecord) (p : String) : Bool :=
  bom.any (fun r => decide (r.component = some p))

/-- Combine a previous role-evidence entry with newly observed evidence,
with a missing entry created exactly when some evidence is observed. -/
def orOpt (o : Option (Bool × Bool)) (a c : Bool) : Option (Bool × Bool) :=
  match o with
  | some ac => some (ac.1 || a, ac.2 || c)
  | none => if a || c then some (a, c) else none

/-- Does the record carry the given (assembly, component) key? -/
def recKey (a c : String) (r : BOMRecord) : Bool :=
  decide (r.assembly = some a) && decide (r.component = some c)

theorem orOpt_false (o : Option (Bool × Bool)) : orOpt o false false = o := by
  cases o with
  | none => simp [orOpt]
  | some ac => simp [orOpt]

theorem orOpt_orOpt (o : Option (Bool × Bool)) (a1 c1 a2 c2 : Bool) :
    orOpt (orOpt o a1 c1) a2 c2 = orOpt o (a1 || a2) (c1 || c2) := by
  cases o with
  | none => cases a1 <;> cases c1 <;> cases a2 <;> cases c2 <;> simp [orOpt]
  | some ac => simp [orOpt, Bool.or_assoc]

theorem isSome_orOpt (o : Option (Bool × Bool)) (a c : Bool) :
    (orOpt o a c).isSome = (o.isSome || a || c) := by
  cases o with
  | none =>
    cases a <;> cases c <;> simp [orOpt]
  | some ac => simp [orOpt]

theorem alookup_addRole (m : RoleMap) (p : String) (b : Bool) (q : String) :
    alookup (addRole m p b) q =
      if q = p then orOpt (alookup m p) b (!b) else alookup m q := by
  induction m with
  | nil =>
    by_cases h : q = p
    · subst h
      simp [addRole, alookup, orOpt, Bool.or_not_self]
    · have h2 : ¬ (p = q) := fun hh => h hh.symm
      simp [addRole, alookup, h, h2]
  | cons ab m ih =>
    obtain ⟨a, ac⟩ := ab
    by_cases hap : a = p
    · subst hap
      by_cases h : q = a
      · subst h
        simp [addRole, alookup, orOpt]
      · have h2 : ¬ (a = q) := fun hh => h hh.symm
        simp [addRole, alookup, h, h2]
    · by_cases h : q = a
      · subst h
        have h2 : ¬ (q = p) := fun hh => hap (hh ▸ rfl)
        simp [addRole, alookup, hap, h2]
      · have h2 : ¬ (a = q) := fun hh => h hh.symm
        simp [addRole, alookup, hap, h2, ih]

theorem keysOf_addRole_mem (m : RoleMap) (p : String) (b : Bool) (q : String) :
    q ∈ keysOf (addRole m p b) ↔ q ∈ keysOf m ∨ q = p := by
  rw [← isSome_alookup, ← isSome_alookup, alookup_addRole]
  by_cases h : q = p
  · subst h
    simp [isSome_orOpt, Bool.or_not_self]
    cases b <;> simp
  · simp [h]

theorem nodup_keys_addRole (m : RoleMap) (p : String) (b : Bool)
    (h : (keysOf m).Nodup) : (keysOf (addRole m p b)).Nodup := by
  induction m with
  | nil => simp [addRole, keysOf]
  | cons ab m ih =>
    obtain ⟨a, ac⟩ := ab
    simp only [keysOf, List.map_cons, List.nodup_cons] at h
    by_cases hap : a = p
    · subst hap
      simpa [addRole, keysOf, List.nodup_cons] using h
    · simp only [addRole, if_neg hap, keysOf, List.map_cons, List.nodup_cons]
      refine ⟨?_, ih h.2⟩
      intro hmem
      have := (keysOf_addRole_mem m p b a).mp hmem
      rcases this with hin | heq
      · exact h.1 hin
      · exact hap heq

/-- Characterisation of the first pass: the role-evidence stored for a part
after scanning records `rs` on top of an accumulator `m` combines the
accumulator entry with per-record appearance evidence. -/
theorem rolesOf_ok_alookup (rs : List BOMRecord) (m out : RoleMap)
    (h : rolesOf rs m = Except.ok out) (p : String) :
    alookup out p = orOpt (alookup m p) (appearsAsAssembly rs p) (appearsAsComponent rs p) := by
  induction rs generalizing m with
  | nil =>
    simp only [rolesOf] at h
    rcases Except.ok.inj h with rfl
    simp [appearsAsAssembly, appearsAsComponent, orOpt_false]
  | cons r rs ih =>
    rw [rolesOf] at h
    cases ha : r.assembly with
    | none => rw [ha] at h; exact Except.noConfusion h
    | some a =>
      cases hc : r.component with
      | none => rw [ha, hc] at h; exact Except.noConfusion h
      | some c =>
        rw [ha, hc] at h
        have step := ih (addRole (addRole m a true) c false) h
        rw [step, alookup_addRole, alookup_addRole]
        have hApp : appearsAsAssembly (r :: rs) p =
            (decide (a = p) || appearsAsAssembly rs p) := by
          simp [appearsAsAssembly, ha, List.any_cons]
        have hCmp : appearsAsComponent (r :: rs) p =
            (decide (c = p) || appearsAsComponent rs p) := by
          simp [appearsAsComponent, hc, List.any_cons]
        rw [hApp, hCmp]
        by_cases hpc : p = c
        · subst hpc
          by_cases hpa : p = a
          · subst hpa
            simp [alookup_addRole, orOpt_orOpt]
          · have h2 : ¬ (a = p) := fun hh => hpa hh.symm
            simp [alookup_addRole, hpa, h2, orOpt_orOpt]
        · have h2 : ¬ (c = p) := fun hh => hpc hh.symm
          by_cases hpa : p = a
          · subst hpa
            simp [alookup_addRole, hpc, h2, orOpt_orOpt]
          · have h3 : ¬ (a = p) := fun hh => hpa hh.symm
            simp [alookup_addRole, hpc, h2, hpa, h3]

theorem rolesOf_ok_nodup (rs : List BOMRecord) (m out : RoleMap)
    (hm : (keysOf m).Nodup) (h : rolesOf rs m = Except.ok out) :
    (keysOf out).Nodup := by
  induction rs generalizing m with
  | nil =>
    simp [rolesOf] at h
    rw [← h]
    exact hm
  | cons r rs ih =>
    rw [rolesOf] at h
    cases ha : r.assembly with
    | none => rw [ha] at h; exact Except.noConfusion h
    | some a =>
      cases hc : r.component with
      | none => rw [ha, hc] at h; exact Except.noConfusion h
      | some c =>
        rw [ha, hc] at h
        exact ih (addRole (addRole m a true) c false)
          (nodup_keys_addRole _ _ _ (nodup_keys_addRole _ _ _ hm)) h

/-- A first pass that failed means some record is missing `Assembly` or
`Component`, and conversely. -/
theorem rolesOf_error (rs : List BOMRecord) (m : RoleMap) :
    rolesOf rs m = Except.error "MalformedRecord" ↔
      ∃ r ∈ rs, r.assembly = none ∨ r.component = none := by
  induction rs generalizing m with
  | nil =>
    simp only [rolesOf]
    constructor
    · intro h
      exact Except.noConfusion h
    · rintro ⟨r, hr, _⟩
      exact absurd hr (List.not_mem_nil r)
  | cons r rs ih =>
    rw [rolesOf]
    cases ha : r.assembly with
    | none =>
      simp only [List.mem_cons]
      constructor
      · intro _
        exact ⟨r, Or.inl rfl, Or.inl ha⟩
      · intro _
        trivial
    | some a =>
      cases hc : r.component with
      | none =>
        simp only [List.mem_cons]
        constructor
        · intro _
          exact ⟨r, Or.inl rfl, Or.inr hc⟩
        · intro _
          trivial
      | some c =>
        rw [ih]
        simp only [List.mem_cons]
        constructor
        · rintro ⟨r2, hr2, hmiss⟩
          exact ⟨r2, Or.inr hr2, hmiss⟩
        · rintro ⟨r2, hr2, hmiss⟩
          rcases hr2 with rfl | hr2
          · rcases hmiss with hm1 | hm1
            · rw [ha] at hm1; exact Option.noConfusion hm1
            · rw [hc] at hm1; exact Option.noConfusion hm1
          · exact ⟨r2, hr2, hmiss⟩

/-- Characterisation of the second pass: after a successful scan the edge
stored at an (assembly, component) key carries the attributes of the last
record with that key, and keys never written keep their accumulator value. -/
theorem edgesOf_ok_alookup (rs : List BOMRecord) (m out : PSEdgeMap)
    (h : edgesOf rs m = Except.ok out) (a c : String) :
    alookup out (a, c) =
      match lastMatch (recKey a c) rs with
      | some r => some (r.quantityPer.getD 0, r.scrap.getD 0)
      | none => alookup m (a, c) := by
  induction rs generalizing m with
  | nil =>
    simp only [edgesOf] at h
    rcases Except.ok.inj h with rfl
    simp [lastMatch]
  | cons r rs ih =>
    rw [edgesOf] at h
    cases ha : r.assembly with
    | none => rw [ha] at h; exact Except.noConfusion h
    | some a2 =>
      cases hc : r.component with
      | none => rw [ha, hc] at h; exact Except.noConfusion h
      | some c2 =>
        cases hq : r.quantityPer with
        | none => rw [ha, hc, hq] at h; exact Except.noConfusion h
        | some q =>
          rw [ha, hc, hq] at h
          have step := ih (upsertA m (a2, c2) (q, r.scrap.getD 0)) h
          rw [step]
          cases hrec : lastMatch (recKey a c) rs with
          | some r2 =>
            rw [lastMatch_cons_some (recKey a c) r rs r2 hrec]
          | none =>
            rw [lastMatch_cons_none (recKey a c) r rs hrec]
            by_cases hkey : recKey a c r = true
            · rw [if_pos hkey]
              have hac : a2 = a ∧ c2 = c := by
                rw [recKey, ha, hc] at hkey
                simp at hkey
                exact hkey
              rcases hac with ⟨rfl, rfl⟩
              rw [alookup_upsertA]
              simp [hq]
            · rw [if_neg hkey]
              rw [alookup_upsertA]
              have hne : (a, c) ≠ (a2, c2) := by
                intro hcontra
                rw [Prod.mk.injEq] at hcontra
                apply hkey
                rw [recKey, ha, hc, hcontra.1, hcontra.2]
                simp
              rw [if_neg hne]

theorem edgesOf_ok_nodup (rs : List BOMRecord) (m out : PSEdgeMap)
    (hm : (keysOf m).Nodup) (h : edgesOf rs m = Except.ok out) :
    (keysOf out).Nodup := by
  induction rs generalizing m with
  | nil =>
    simp only [edgesOf] at h
    rcases Except.ok.inj h with rfl
    exact hm
  | cons r rs ih =>
    rw [edgesOf] at h
    cases ha : r.assembly with
    | none => rw [ha] at h; exact Except.noConfusion h
    | some a2 =>
      cases hc : r.component with
      | none => rw [ha, hc] at h; exact Except.noConfusion h
      | some c2 =>
        cases hq : r.quantityPer with
        | none => rw [ha, hc, hq] at h; exact Except.noConfusion h
        | some q =>
          rw [ha, hc, hq] at h
          exact ih (upsertA m (a2, c2) (q, r.scrap.getD 0)) (nodup_keys_upsertA _ _ _ hm) h

/-- A successful edge pass means every record carried its three mandatory
fields. -/
theorem edgesOf_ok_fields (rs : List BOMRecord) (m out : PSEdgeMap)
    (h : edgesOf rs m = Except.ok out) :
    ∀ r ∈ rs, r.assembly.isSome ∧ r.component.isSome ∧ r.quantityPer.isSome := by
  induction rs generalizing m with
  | nil => simp
  | cons r rs ih =>
    rw [edgesOf] at h
    cases ha : r.assembly with
    | none => rw [ha] at h; exact Except.noConfusion h
    | some a2 =>
      cases hc : r.component with
      | none => rw [ha, hc] at h; exact Except.noConfusion h
      | some c2 =>
        cases hq : r.quantityPer with
        | none => rw [ha, hc, hq] at h; exact Except.noConfusion h
        | some q =>
          rw [ha, hc, hq] at h
          intro r2 hr2
          rcases List.mem_cons.mp hr2 with rfl | hr2
          · simp [ha, hc, hq]
          · exact ih (upsertA m (a2, c2) (q, r.scrap.getD 0)) h r2 hr2

/-- A successful builder call decomposes into a successful role pass and a
successful edge pass, with the node list derived from the role map. -/
theorem create_ok_parts (bom : List BOMRecord) (G : PSGraph)
    (h : create_product_structure_graph bom = Except.ok G) :
    ∃ rm, rolesOf bom [] = Except.ok rm ∧ edgesOf bom [] = Except.ok G.edges ∧
      G.nodes = rm.map (fun pr => (pr.1, classify pr.2.1 pr.2.2)) := by
  rw [create_product_structure_graph] at h
  cases hr : rolesOf bom [] with
  | error e => rw [hr] at h; exact Except.noConfusion h
  | ok rm =>
    rw [hr] at h
    cases he : edgesOf bom [] with
    | error e => rw [he] at h; exact Except.noConfusion h
    | ok em =>
      rw [he] at h
      rcases Except.ok.inj h with rfl
      exact ⟨rm, rfl, rfl, rfl⟩

theorem lastMatch_exists_iff {α : Type} (p : α → Bool) (l : List α) :
    (∃ y, lastMatch p l = some y) ↔ ∃ x ∈ l, p x = true := by
  constructor
  · rintro ⟨y, hy⟩
    have := lastMatch_mem p l y hy
    exact ⟨y, this.1, this.2⟩
  · rintro ⟨x, hx, hpx⟩
    cases hlm : lastMatch p l with
    | some y => exact ⟨y, rfl⟩
    | none =>
      have := (lastMatch_eq_none p l).mp hlm x hx
      rw [hpx] at this
      exact Bool.noConfusion this

theorem create_alookup_roles (bom : List BOMRecord) (rm : RoleMap)
    (hrm : rolesOf bom [] = Except.ok rm) (p : String) :
    alookup rm p =
      if (appearsAsAssembly bom p || appearsAsComponent bom p) = true
      then some (appearsAsAssembly bom p, appearsAsComponent bom p) else none := by
  rw [rolesOf_ok_alookup bom [] rm hrm p]
  simp [alookup, orOpt]

theorem create_nodes_nodup (bom : List BOMRecord) (G : PSGraph)
    (h : create_product_structure_graph bom = Except.ok G) : (keysOf G.nodes).Nodup := by
  obtain ⟨rm, hrm, hem, hnodes⟩ := create_ok_parts bom G h
  have hkeys : keysOf G.nodes = keysOf rm := by
    rw [hnodes, keysOf, keysOf, List.map_map]
    rfl
  rw [hkeys]
  exact rolesOf_ok_nodup bom [] rm (by simp [keysOf]) hrm

theorem create_nodes_mem (bom : List BOMRecord) (G : PSGraph)
    (h : create_product_structure_graph bom = Except.ok G) (p : String) (r : Role) :
    (p, r) ∈ G.nodes ↔
      ((appearsAsAssembly bom p || appearsAsComponent bom p) = true ∧
        r = classify (appearsAsAssembly bom p) (appearsAsComponent bom p)) := by
  obtain ⟨rm, hrm, hem, hnodes⟩ := create_ok_parts bom G h
  have hnd : (keysOf rm).Nodup := rolesOf_ok_nodup bom [] rm (by simp [keysOf]) hrm
  constructor
  · intro hmem
    rw [hnodes] at hmem
    rcases List.mem_map.mp hmem with ⟨pr, hpr, heq⟩
    rw [Prod.mk.injEq] at heq
    obtain ⟨hp, hr⟩ := heq
    subst hp
    have hl : alookup rm pr.1 = some pr.2 :=
      alookup_eq_some_of_mem rm pr.1 pr.2 hnd (by simpa using hpr)
    rw [create_alookup_roles bom rm hrm pr.1] at hl
    by_cases hcond : (appearsAsAssembly bom pr.1 || appearsAsComponent bom pr.1) = true
    · rw [if_pos hcond] at hl
      have hpr2 := Option.some.inj hl
      refine ⟨hcond, ?_⟩
      rw [← hr, ← hpr2]
    · rw [if_neg hcond] at hl
      exact Option.noConfusion hl
  · rintro ⟨hcond, hr⟩
    have hl : alookup rm p = some (appearsAsAssembly bom p, appearsAsComponent bom p) := by
      rw [create_alookup_roles bom rm hrm p, if_pos hcond]
    have hmem := mem_of_alookup_eq_some rm p _ hl
    rw [hnodes]
    exact List.mem_map.mpr
      ⟨(p, (appearsAsAssembly bom p, appearsAsComponent bom p)), hmem, by rw [hr]⟩

theorem classify_eq_subassembly (a c : Bool) :
    classify a c = Role.subassembly ↔ (a = true ∧ c = true) := by
  cases a <;> cases c <;> simp [classify]

theorem appearsAsAssembly_perm (bom1 bom2 : List BOMRecord) (h : List.Perm bom1 bom2)
    (p : String) : appearsAsAssembly bom1 p = appearsAsAssembly bom2 p := by
  rw [Bool.eq_iff_iff, appearsAsAssembly, appearsAsAssembly, List.any_eq_true,
    List.any_eq_true]
  constructor
  · rintro ⟨r, hr, hp⟩
    exact ⟨r, h.mem_iff.mp hr, hp⟩
  · rintro ⟨r, hr, hp⟩
    exact ⟨r, h.mem_iff.mpr hr, hp⟩

theorem appearsAsComponent_perm (bom1 bom2 : List BOMRecord) (h : List.Perm bom1 bom2)
    (p : String) : appearsAsComponent bom1 p = appearsAsComponent bom2 p := by
  rw [Bool.eq_iff_iff, appearsAsComponent, appearsAsComponent, List.any_eq_true,
    List.any_eq_true]
  constructor
  · rintro ⟨r, hr, hp⟩
    exact ⟨r, h.mem_iff.mp hr, hp⟩
  · rintro ⟨r, hr, hp⟩
    exact ⟨r, h.mem_iff.mpr hr, hp⟩

/-- C2.  Every part appearing in the records gets exactly one role in the
product structure graph: the role is `classify` of its appearance evidence
(subassembly iff it appears both as an assembly and as a component), and
the assignment is invariant under permutation of the record list. -/
theorem claim_c2_role_classification (bom : List BOMRecord) (G : PSGraph)
    (h : create_product_structure_graph bom = Except.ok G) :
    (keysOf G.nodes).Nodup ∧
    (∀ p r, (p, r) ∈ G.nodes ↔
      ((appearsAsAssembly bom p || appearsAsComponent bom p) = true ∧
        r = classify (appearsAsAssembly bom p) (appearsAsComponent bom p))) ∧
    (∀ p, (p, Role.subassembly) ∈ G.nodes ↔
      (appearsAsAssembly bom p = true ∧ appearsAsComponent bom p = true)) ∧
    (∀ bom2 G2, List.Perm bom2 bom → create_product_structure_graph bom2 = Except.ok G2 →
      ∀ p r, ((p, r) ∈ G2.nodes ↔ (p, r) ∈ G.nodes)) := by
  refine ⟨create_nodes_nodup bom G h, create_nodes_mem bom G h, ?_, ?_⟩
  · intro p
    rw [create_nodes_mem bom G h p Role.subassembly]
    constructor
    · rintro ⟨hcond, hcls⟩
      exact (classify_eq_subassembly _ _).mp hcls.symm
    · rintro ⟨ha, hc⟩
      refine ⟨by rw [ha]; simp, ?_⟩
      rw [ha, hc]
      rfl
  · intro bom2 G2 hperm h2 p r
    rw [create_nodes_mem bom G h p r, create_nodes_mem bom2 G2 h2 p r,
      appearsAsAssembly_perm bom2 bom hperm, appearsAsComponent_perm bom2 bom hperm]

/-- Scenario A record list from the spec. -/
def scenarioA : List BOMRecord :=
  [⟨some "A", some "B", some 2, some (1/10)⟩,
   ⟨some "A", some "C", some 1, some 0⟩,
   ⟨some "B", some "D", some 3, some (1/20)⟩]

/-- Scenario A product structure graph. -/
def scenarioAGraph : PSGraph :=
  ⟨[("A", Role.assembly), ("B", Role.subassembly), ("C", Role.component),
    ("D", Role.component)],
   [(("A", "B"), (2, 1/10)), (("A", "C"), (1, 0)), (("B", "D"), (3, 1/20))]⟩

theorem claim_c2_role_classification_witness :
    ("B", Role.subassembly) ∈ scenarioAGraph.nodes ↔
      (appearsAsAssembly scenarioA "B" = true ∧ appearsAsComponent scenarioA "B" = true) :=
  (claim_c2_role_classification scenarioA scenarioAGraph rfl).2.2.1 "B"

/-- Scenario B record list from the spec (duplicate (A, B) key). -/
def scenarioB : List BOMRecord :=
  [⟨some "A", some "B", some 2, some (1/10)⟩, ⟨some "A", some "B", some 5, some (1/5)⟩]

/-- C3.  The edge map has exactly one edge per distinct (assembly,
component) pair occurring in the records, and its attributes are those of
the last record for that pair in input order; Scenario B yields the single
edge (A, B, 5, 1/5). -/
theorem claim_c3_edge_overwrite :
    (∀ bom G, create_product_structure_graph bom = Except.ok G →
      (keysOf G.edges).Nodup ∧
      (∀ a c q s, (((a, c), (q, s)) ∈ G.edges) ↔
        (∃ r, lastMatch (recKey a c) bom = some r ∧ r.quantityPer = some q ∧
          r.scrap.getD 0 = s)) ∧
      (∀ a c, (a, c) ∈ keysOf G.edges ↔ bom.any (recKey a c) = true)) ∧
    create_product_structure_graph scenarioB =
      Except.ok ⟨[("A", Role.assembly), ("B", Role.component)], [(("A", "B"), (5, 1/5))]⟩ := by
  constructor
  · intro bom G h
    obtain ⟨rm, hrm, hem, hnodes⟩ := create_ok_parts bom G h
    have hnd : (keysOf G.edges).Nodup := edgesOf_ok_nodup bom [] G.edges (by simp [keysOf]) hem
    refine ⟨hnd, ?_, ?_⟩
    · intro a c q s
      rw [mem_iff_alookup G.edges (a, c) (q, s) hnd,
        edgesOf_ok_alookup bom [] G.edges hem a c]
      cases hlm : lastMatch (recKey a c) bom with
      | none =>
        simp [alookup]
      | some r =>
        have hrmem := lastMatch_mem (recKey a c) bom r hlm
        have hfields := edgesOf_ok_fields bom [] G.edges hem r hrmem.1
        rcases Option.isSome_iff_exists.mp hfields.2.2 with ⟨q0, hq0⟩
        simp only [Option.some.injEq, Prod.mk.injEq]
        constructor
        · rintro ⟨hq, hs⟩
          refine ⟨r, rfl, ?_, hs⟩
          rw [hq0, ← hq, hq0]
          rfl
        · rintro ⟨r2, hr2, hq, hs⟩
          subst hr2
          refine ⟨?_, hs⟩
          rw [hq]
          rfl
    · intro a c
      rw [← isSome_alookup, edgesOf_ok_alookup bom [] G.edges hem a c]
      cases hlm : lastMatch (recKey a c) bom with
      | none =>
        simp only [alookup, Option.isSome_none, Bool.false_eq_true, false_iff]
        intro hany
        rcases List.any_eq_true.mp hany with ⟨r, hr, hp⟩
        have := (lastMatch_eq_none (recKey a c) bom).mp hlm r hr
        rw [hp] at this
        exact Bool.noConfusion this
      | some r =>
        have hrmem := lastMatch_mem (recKey a c) bom r hlm
        simp only [Option.isSome_some, true_iff]
        exact List.any_eq_true.mpr ⟨r, hrmem.1, hrmem.2⟩
  · rfl

theorem claim_c3_edge_overwrite_witness :
    ("A", "B") ∈ keysOf
      (PSGraph.mk [("A", Role.assembly), ("B", Role.component)]
        [(("A", "B"), (5, 1/5))]).edges ↔
      scenarioB.any (recKey "A" "B") = true :=
  (claim_c3_edge_overwrite.1 scenarioB
    (PSGraph.mk [("A", Role.assembly), ("B", Role.component)] [(("A", "B"), (5, 1/5))])
    rfl).2.2 "A" "B"

/-- C8.  A record list containing a record without `Assembly` or without
`Component` makes the builder fail with the MalformedRecord error (no graph
is returned at all), while the empty record list succeeds with the empty
graph. -/
theorem claim_c8_malformed_and_empty :
    (∀ bom : List BOMRecord, (∃ r ∈ bom, r.assembly = none ∨ r.component = none) →
      create_product_structure_graph bom = Except.error "MalformedRecord") ∧
    create_product_structure_graph [] = Except.ok ⟨[], []⟩ := by
  constructor
  · intro bom hbad
    have hr : rolesOf bom [] = Except.error "MalformedRecord" :=
      (rolesOf_error bom []).mpr hbad
    rw [create_product_structure_graph, hr]
  · rfl

theorem claim_c8_malformed_and_empty_witness :
    create_product_structure_graph [⟨none, some "B", some 1, none⟩] =
      Except.error "MalformedRecord" :=
  claim_c8_malformed_and_empty.1 [⟨none, some "B", some 1, none⟩]
    ⟨⟨none, some "B", some 1, none⟩, List.mem_singleton.mpr rfl, Or.inl rfl⟩

/-- C10.  A record carrying `Assembly` and `Component` but no `QuantityPer`
passes the role pass (role classification over all records completes) and
then fails in the edge-insertion pass, so the whole build errors instead of
defaulting the quantity; `Scrap`, in contrast, defaults to 0 when absent. -/
theorem claim_c10_quantity_mandatory :
    rolesOf [⟨some "A", some "B", none, none⟩] [] =
      Except.ok [("A", (true, false)), ("B", (false, true))] ∧
    edgesOf [⟨some "A", some "B", none, none⟩] [] = Except.error "MalformedRecord" ∧
    create_product_structure_graph [⟨some "A", some "B", none, none⟩] =
      Except.error "MalformedRecord" ∧
    create_product_structure_graph [⟨some "A", some "B", some 2, none⟩] =
      Except.ok ⟨[("A", Role.assembly), ("B", Role.component)], [(("A", "B"), (2, 0))]⟩ :=
  ⟨rfl, rfl, rfl, rfl⟩

/-- One lifecycle event: part identifier, time stamp, open event-type
label. -/
structure Event where
  node : String
  time : Int
  event_type : String
deriving DecidableEq, Repr

/-- Insert an event into a time-sorted event list, before the first element
whose time is not smaller; together with `sortEvents` this is the unique
stable ascending sort by time, modelling Python
`sorted(events, key=lambda x: x['time'])`. -/
def insertE (e : Event) : List Event → List Event
  | [] => [e]
  | x :: xs => if x.time < e.time then x :: insertE e xs else e :: x :: xs

/-- Stable sort of the event list by ascending time. -/
def sortEvents : List Event → List Event
  | [] => []
  | e :: es => insertE e (sortEvents es)

/-- Time-space node map: key (originalNode, time) to the stored eventType,
modelling the `TSN` nodes with their attribute dicts (the Python node id
string `f"{node}_{time}"` is in bijection with the key pair, since the
decimal rendering of the time contains no underscore). -/
abbrev NodeMap := List ((String × Int) × String)

/-- Process the (sorted) events in order, upserting the time-space node
keyed by (node, time); a later event with the same key overwrites the
stored event type (`TSN.add_node` merge semantics). -/
def buildNodes : List Event → NodeMap → NodeMap
  | [], m => m
  | e :: es, m => buildNodes es (upsertA m (e.node, e.time) e.event_type)

/-- Node map of `create_time_space_network` for the given event list. -/
def tsnNodes (events : List Event) : NodeMap :=
  buildNodes (sortEvents events) []

/-- Times of the time-space nodes of one original node, in node-map order,
modelling the `nodes_by_original` grouping pass. -/
def groupTimes (nodes : NodeMap) (orig : String) : List Int :=
  (nodes.filter (fun kv => decide (kv.1.1 = orig))).map (fun kv => kv.1.2)

/-- Insert into an ascending list of times (Python `sorted` on the group,
whose times are pairwise distinct). -/
def insertI (t : Int) : List Int → List Int
  | [] => [t]
  | x :: xs => if x < t then x :: insertI t xs else t :: x :: xs

/-- Sort a list of times ascending. -/
def sortInts : List Int → List Int
  | [] => []
  | t :: ts => insertI t (sortInts ts)

/-- First-occurrence deduplication, modelling the key order of the
`nodes_by_original` dict. -/
def firstDedup : List String → List String
  | [] => []
  | x :: xs => x :: (firstDedup xs).filter (fun y => decide (y ≠ x))

/-- Original nodes present in the node map, in first-occurrence order. -/
def origsOf (nodes : NodeMap) : List String :=
  firstDedup (nodes.map (fun kv => kv.1.1))

/-- Edge map of the time-space network: key (source, target) node pair to
(lead_time, optional relationship attribute). -/
abbrev EdgeMap := List (((String × Int) × (String × Int)) × (Int × Option String))

/-- Chronological edges: for each original node, link the time-sorted
consecutive pairs of its time-space nodes with `lead_time` equal to the
time difference and no relationship attribute. -/
def chronoEdges (nodes : NodeMap) : EdgeMap :=
  (origsOf nodes).flatMap (fun orig =>
    let g := sortInts (groupTimes nodes orig)
    (g.zip g.tail).map (fun st =>
      (((orig, st.1), (orig, st.2)), (st.2 - st.1, (none : Option String)))))

/-- Causal pass for one product-graph edge (u, v): for every u time-space
node in ascending time order, find the first v time-space node with
strictly greater time and upsert the causal edge with
`relationship = "assembly-component"` (`TSN.add_edge` overwrites the
attributes of an existing edge with the same endpoints). -/
def causalForEdge (nodes : NodeMap) (acc : EdgeMap) (uv : String × String) : EdgeMap :=
  (sortInts (groupTimes nodes uv.1)).foldl (fun a ut =>
    match (sortInts (groupTimes nodes uv.2)).find? (fun vt => decide (ut < vt)) with
    | some vt =>
      upsertA a ((uv.1, ut), (uv.2, vt)) (vt - ut, some "assembly-component")
    | none => a) acc

/-- Causal pass over all product-graph edges in order. -/
def causalPhase (nodes : NodeMap) (pedges : List (String × String)) (init : EdgeMap) :
    EdgeMap :=
  pedges.foldl (causalForEdge nodes) init

/-- The time-space network: node map plus edge map. -/
structure TSN where
  nodes : NodeMap
  edges : EdgeMap
deriving DecidableEq, Repr

/-- Embedding of `create_time_space_network` (graph.py lines 240-321):
sort events by time, build the (node, time)-keyed node map, add the
per-original chronological chain, then the causal edges for every
product-graph edge.  The product graph enters only through its directed
edge list. -/
def create_time_space_network (pedges : List (String × String)) (events : List Event) :
    TSN :=
  let nodes := tsnNodes events
  ⟨nodes, causalPhase nodes pedges (chronoEdges nodes)⟩

/-- Does the event carry the given (node, time) key? -/
def keyMatch (k : String × Int) (e : Event) : Bool :=
  decide ((e.node, e.time) = k)

theorem filter_keyMatch_insertE (k : String × Int) (e : Event) (m : List Event) :
    (insertE e m).filter (keyMatch k) =
      if keyMatch k e then e :: m.filter (keyMatch k) else m.filter (keyMatch k) := by
  induction m with
  | nil =>
    rw [insertE]
    by_cases hpe : keyMatch k e = true
    · simp [List.filter_cons, hpe]
    · simp [List.filter_cons, hpe]
  | cons x xs ih =>
    rw [insertE]
    by_cases hlt : x.time < e.time
    · rw [if_pos hlt]
      by_cases hpe : keyMatch k e = true
      · have hpx : keyMatch k x = false := by
          rw [keyMatch, decide_eq_false_iff_not]
          intro hx
          have he := of_decide_eq_true hpe
          have : x.time = e.time := by
            have h1 : x.time = k.2 := by rw [← hx]
            have h2 : e.time = k.2 := by rw [← he]
            rw [h1, h2]
          rw [this] at hlt
          exact lt_irrefl _ hlt
        rw [List.filter_cons, List.filter_cons]
        simp only [hpx, Bool.false_eq_true, if_false]
        rw [ih, if_pos hpe]
      · rw [List.filter_cons, List.filter_cons, ih]
        simp only [hpe, Bool.false_eq_true, if_false]
    · rw [if_neg hlt]
      rw [List.filter_cons]

theorem filter_keyMatch_sortEvents (k : String × Int) (l : List Event) :
    (sortEvents l).filter (keyMatch k) = l.filter (keyMatch k) := by
  induction l with
  | nil => rfl
  | cons e es ih =>
    rw [sortEvents, filter_keyMatch_insertE, List.filter_cons, ih]

theorem lastMatch_eq_getLast_filter {α : Type} (p : α → Bool) (l : List α) :
    lastMatch p l = (l.filter p).getLast? := by
  induction l with
  | nil => rfl
  | cons x xs ih =>
    cases hrec : lastMatch p xs with
    | some y =>
      rw [lastMatch_cons_some p x xs y hrec]
      rw [hrec] at ih
      rw [List.filter_cons]
      by_cases hpx : p x = true
      · simp only [hpx, if_true]
        cases hfil : xs.filter p with
        | nil => rw [hfil] at ih; exact Option.noConfusion (ih.trans rfl)
        | cons z zs =>
          rw [hfil] at ih
          rw [List.getLast?_cons_cons]
          exact ih
      · simp only [hpx, Bool.false_eq_true, if_false]
        exact ih
    | none =>
      rw [lastMatch_cons_none p x xs hrec]
      rw [hrec] at ih
      have hfil : xs.filter p = [] := List.getLast?_eq_none_iff.mp ih.symm
      rw [List.filter_cons, hfil]
      by_cases hpx : p x = true
      · simp [hpx]
      · simp [hpx]

theorem lastMatch_keyMatch_sortEvents (k : String × Int) (l : List Event) :
    lastMatch (keyMatch k) (sortEvents l) = lastMatch (keyMatch k) l := by
  rw [lastMatch_eq_getLast_filter, lastMatch_eq_getLast_filter,
    filter_keyMatch_sortEvents]

theorem alookup_buildNodes (l : List Event) (m : NodeMap) (k : String × Int) :
    alookup (buildNodes l m) k =
      match lastMatch (keyMatch k) l with
      | some e => some e.event_type
      | none => alookup m k := by
  induction l generalizing m with
  | nil => rw [buildNodes, lastMatch]
  | cons e es ih =>
    rw [buildNodes, ih]
    cases hrec : lastMatch (keyMatch k) es with
    | some y =>
      rw [lastMatch_cons_some _ _ _ _ hrec]
    | none =>
      rw [lastMatch_cons_none _ _ _ hrec]
      by_cases hpe : keyMatch k e = true
      · rw [if_pos hpe, alookup_upsertA]
        have hk : k = (e.node, e.time) := (of_decide_eq_true hpe).symm
        rw [if_pos hk]
      · rw [if_neg hpe, alookup_upsertA]
        have hk : ¬ (k = (e.node, e.time)) := by
          intro hh
          exact hpe (decide_eq_true hh.symm)
        rw [if_neg hk]

theorem nodup_keys_buildNodes (l : List Event) (m : NodeMap)
    (hm : (keysOf m).Nodup) : (keysOf (buildNodes l m)).Nodup := by
  induction l generalizing m with
  | nil => exact hm
  | cons e es ih =>
    rw [buildNodes]
    exact ih _ (nodup_keys_upsertA _ _ _ hm)

/-- The node map of the time-space network stores, at each (node, time)
key, the event type of the last event with that key in input order (events
with equal time keep their input order under the stable sort). -/
theorem alookup_tsnNodes (events : List Event) (k : String × Int) :
    alookup (tsnNodes events) k =
      match lastMatch (keyMatch k) events with
      | some e => some e.event_type
      | none => none := by
  rw [tsnNodes, alookup_buildNodes, lastMatch_keyMatch_sortEvents]
  cases lastMatch (keyMatch k) events with
  | some e => rfl
  | none => rfl

theorem nodup_keys_tsnNodes (events : List Event) : (keysOf (tsnNodes events)).Nodup :=
  nodup_keys_buildNodes _ _ (by simp [keysOf])

theorem mem_keys_tsnNodes (events : List Event) (k : String × Int) :
    k ∈ keysOf (tsnNodes events) ↔ ∃ e ∈ events, (e.node, e.time) = k := by
  rw [← isSome_alookup, alookup_tsnNodes]
  cases hlm : lastMatch (keyMatch k) events with
  | some e =>
    have hmem := lastMatch_mem _ _ _ hlm
    simp only [Option.isSome_some, true_iff]
    exact ⟨e, hmem.1, of_decide_eq_true hmem.2⟩
  | none =>
    simp only [Option.isSome_none, Bool.false_eq_true, false_iff]
    rintro ⟨e, he, hk⟩
    have := (lastMatch_eq_none _ _).mp hlm e he
    rw [keyMatch, decide_eq_false_iff_not] at this
    exact this hk

theorem mem_groupTimes (nodes : NodeMap) (orig : String) (t : Int) :
    t ∈ groupTimes nodes orig ↔ (orig, t) ∈ keysOf nodes := by
  rw [groupTimes, keysOf]
  constructor
  · intro h
    rcases List.mem_map.mp h with ⟨kv, hkv, ht⟩
    rcases List.mem_filter.mp hkv with ⟨hmem, horig⟩
    have horig2 := of_decide_eq_true horig
    refine List.mem_map.mpr ⟨kv, hmem, ?_⟩
    rw [Prod.ext_iff]
    exact ⟨horig2, ht⟩
  · intro h
    rcases List.mem_map.mp h with ⟨kv, hkv, hk⟩
    rw [Prod.ext_iff] at hk
    refine List.mem_map.mpr ⟨kv, List.mem_filter.mpr ⟨hkv, decide_eq_true hk.1⟩, hk.2⟩

theorem nodup_groupTimes (nodes : NodeMap) (orig : String)
    (h : (keysOf nodes).Nodup) : (groupTimes nodes orig).Nodup := by
  rw [groupTimes]
  have hsub : List.Sublist (nodes.filter (fun kv => decide (kv.1.1 = orig))) nodes :=
    List.filter_sublist nodes
  have hkeys : ((nodes.filter (fun kv => decide (kv.1.1 = orig))).map Prod.fst).Nodup :=
    List.Nodup.sublist (List.Sublist.map Prod.fst hsub) h
  have hmap : (nodes.filter (fun kv => decide (kv.1.1 = orig))).map (fun kv => kv.1.2) =
      ((nodes.filter (fun kv => decide (kv.1.1 = orig))).map Prod.fst).map Prod.snd := by
    rw [List.map_map]
    rfl
  rw [hmap]
  refine List.Nodup.map_on ?_ hkeys
  intro x hx y hy hxy
  rcases List.mem_map.mp hx with ⟨kvx, hkvx, hfx⟩
  rcases List.mem_map.mp hy with ⟨kvy, hkvy, hfy⟩
  have hx1 : x.1 = orig := by
    rw [← hfx]
    exact of_decide_eq_true (List.mem_filter.mp hkvx).2
  have hy1 : y.1 = orig := by
    rw [← hfy]
    exact of_decide_eq_true (List.mem_filter.mp hkvy).2
  rw [Prod.ext_iff]
  exact ⟨hx1.trans hy1.symm, hxy⟩

theorem mem_insertI (t : Int) (l : List Int) (a : Int) :
    a ∈ insertI t l ↔ a = t ∨ a ∈ l := by
  induction l with
  | nil => simp [insertI]
  | cons x xs ih =>
    rw [insertI]
    by_cases hlt : x < t
    · rw [if_pos hlt]
      rw [List.mem_cons, ih, List.mem_cons]
      tauto
    · rw [if_neg hlt]
      rw [List.mem_cons, List.mem_cons]

theorem mem_sortInts (l : List Int) (a : Int) : a ∈ sortInts l ↔ a ∈ l := by
  induction l with
  | nil => simp [sortInts]
  | cons t ts ih =>
    rw [sortInts, mem_insertI, ih, List.mem_cons]

theorem nodup_insertI (t : Int) (l : List Int) (ht : t ∉ l) (h : l.Nodup) :
    (insertI t l).Nodup := by
  induction l with
  | nil => simp [insertI]
  | cons x xs ih =>
    rw [insertI]
    rw [List.mem_cons] at ht
    push_neg at ht
    rw [List.nodup_cons] at h
    by_cases hlt : x < t
    · rw [if_pos hlt, List.nodup_cons]
      refine ⟨?_, ih ht.2 h.2⟩
      rw [mem_insertI]
      rintro (rfl | hx)
      · exact ht.1 rfl
      · exact h.1 hx
    · rw [if_neg hlt, List.nodup_cons, List.nodup_cons]
      refine ⟨?_, h⟩
      rw [List.mem_cons]
      rintro (rfl | hx)
      · exact ht.1 rfl
      · exact ht.2 hx

theorem nodup_sortInts (l : List Int) (h : l.Nodup) : (sortInts l).Nodup := by
  induction l with
  | nil => simp [sortInts]
  | cons t ts ih =>
    rw [List.nodup_cons] at h
    rw [sortInts]
    refine nodup_insertI t _ ?_ (ih h.2)
    rw [mem_sortInts]
    exact h.1

theorem pairwise_le_insertI (t : Int) (l : List Int) (h : l.Pairwise (· ≤ ·)) :
    (insertI t l).Pairwise (· ≤ ·) := by
  induction l with
  | nil => simp [insertI]
  | cons x xs ih =>
    rw [List.pairwise_cons] at h
    rw [insertI]
    by_cases hlt : x < t
    · rw [if_pos hlt, List.pairwise_cons]
      constructor
      · intro a ha
        rw [mem_insertI] at ha
        rcases ha with rfl | ha
        · exact le_of_lt hlt
        · exact h.1 a ha
      · exact ih h.2
    · rw [if_neg hlt, List.pairwise_cons]
      push_neg at hlt
      constructor
      · intro a ha
        rw [List.mem_cons] at ha
        rcases ha with rfl | ha
        · exact hlt
        · exact le_trans hlt (h.1 a ha)
      · rw [List.pairwise_cons]
        exact h

theorem pairwise_le_sortInts (l : List Int) : (sortInts l).Pairwise (· ≤ ·) := by
  induction l with
  | nil => simp [sortInts]
  | cons t ts ih =>
    rw [sortInts]
    exact pairwise_le_insertI t _ ih

theorem perm_insertI (t : Int) (l : List Int) : List.Perm (insertI t l) (t :: l) := by
  induction l with
  | nil => simp [insertI]
  | cons x xs ih =>
    rw [insertI]
    by_cases hlt : x < t
    · rw [if_pos hlt]
      exact List.Perm.trans (List.Perm.cons x ih) (List.Perm.swap t x xs)
    · rw [if_neg hlt]

theorem perm_sortInts (l : List Int) : List.Perm (sortInts l) l := by
  induction l with
  | nil => simp [sortInts]
  | cons t ts ih =>
    rw [sortInts]
    exact List.Perm.trans (perm_insertI t _) (List.Perm.cons t ih)

theorem pairwise_lt_sortInts (l : List Int) (h : l.Nodup) :
    (sortInts l).Pairwise (· < ·) := by
  have hle := pairwise_le_sortInts l
  have hnd : (sortInts l).Nodup := nodup_sortInts l h
  have hand := List.Pairwise.and hle hnd
  refine hand.imp ?_
  rintro a b ⟨hab, hne⟩
  exact lt_of_le_of_ne hab hne

theorem pairwise_of_mem_zip_tail {α : Type} (R : α → α → Prop) (l : List α)
    (h : l.Pairwise R) (s t : α) (hm : (s, t) ∈ l.zip l.tail) : R s t := by
  induction l with
  | nil => simp at hm
  | cons x xs ih =>
    cases xs with
    | nil => simp at hm
    | cons y ys =>
      rw [List.pairwise_cons] at h
      rcases List.mem_cons.mp hm with heq | hm2
      · rw [Prod.mk.injEq] at heq
        rw [← heq.1, ← heq.2] at h
        exact h.1 t (List.mem_cons_self t ys)
      · exact ih h.2 hm2

theorem mem_firstDedup (l : List String) (y : String) : y ∈ firstDedup l ↔ y ∈ l := by
  induction l with
  | nil => simp [firstDedup]
  | cons x xs ih =>
    rw [firstDedup, List.mem_cons, List.mem_cons]
    by_cases hxy : y = x
    · subst hxy
      simp
    · constructor
      · rintro (rfl | hmem)
        · exact Or.inl rfl
        · exact Or.inr (ih.mp (List.mem_filter.mp hmem).1)
      · rintro (rfl | hmem)
        · exact Or.inl rfl
        · exact Or.inr (List.mem_filter.mpr ⟨ih.mpr hmem, decide_eq_true hxy⟩)

theorem nodup_firstDedup (l : List String) : (firstDedup l).Nodup := by
  induction l with
  | nil => simp [firstDedup]
  | cons x xs ih =>
    rw [firstDedup, List.nodup_cons]
    constructor
    · intro hmem
      have := (List.mem_filter.mp hmem).2
      rw [decide_eq_true_iff] at this
      exact this rfl
    · exact List.Nodup.filter _ ih

theorem mem_origsOf (nodes : NodeMap) (orig : String) :
    orig ∈ origsOf nodes ↔ ∃ t, (orig, t) ∈ keysOf nodes := by
  rw [origsOf, mem_firstDedup]
  constructor
  · intro h
    rcases List.mem_map.mp h with ⟨kv, hkv, hk⟩
    refine ⟨kv.1.2, ?_⟩
    rw [keysOf]
    refine List.mem_map.mpr ⟨kv, hkv, ?_⟩
    rw [Prod.ext_iff]
    exact ⟨hk, rfl⟩
  · rintro ⟨t, ht⟩
    rcases List.mem_map.mp ht with ⟨kv, hkv, hk⟩
    refine List.mem_map.mpr ⟨kv, hkv, ?_⟩
    rw [hk]

/-- Key of a time-space edge: (source, target) time-space node pair. -/
abbrev EKey := (String × Int) × (String × Int)

/-- The edge key is one produced by the chronological pass: same original
node at both ends and the two times adjacent in the ascending time list of
that original node. -/
def chronoCond (nodes : NodeMap) (k : EKey) : Prop :=
  k.1.1 = k.2.1 ∧
    (k.1.2, k.2.2) ∈
      (sortInts (groupTimes nodes k.1.1)).zip (sortInts (groupTimes nodes k.1.1)).tail

/-- The edge key is one produced by the causal pass: its original pair is a
product-graph edge, its source time belongs to the source group, and its
target time is the first strictly later time in the target group. -/
def causalCond (nodes : NodeMap) (pedges : List (String × String)) (k : EKey) : Prop :=
  (k.1.1, k.2.1) ∈ pedges ∧ k.1.2 ∈ sortInts (groupTimes nodes k.1.1) ∧
    (sortInts (groupTimes nodes k.2.1)).find? (fun t => decide (k.1.2 < t)) = some k.2.2

instance instDecChronoCond (nodes : NodeMap) (k : EKey) : Decidable (chronoCond nodes k) :=
  inferInstanceAs (Decidable (_ ∧ _))

instance instDecCausalCond (nodes : NodeMap) (pedges : List (String × String)) (k : EKey) :
    Decidable (causalCond nodes pedges k) :=
  inferInstanceAs (Decidable (_ ∧ _ ∧ _))

theorem mem_chronoEdges (nodes : NodeMap) (k : EKey) (v : Int × Option String) :
    (k, v) ∈ chronoEdges nodes ↔ (chronoCond nodes k ∧ v = (k.2.2 - k.1.2, none)) := by
  rw [chronoEdges, List.mem_flatMap]
  constructor
  · rintro ⟨orig, horig, hmem⟩
    rcases List.mem_map.mp hmem with ⟨st, hst, heq⟩
    rw [Prod.mk.injEq] at heq
    obtain ⟨hk, hv⟩ := heq
    rw [← hk]
    refine ⟨⟨rfl, ?_⟩, ?_⟩
    · simpa using hst
    · rw [← hv]
  · rintro ⟨⟨horig, hzip⟩, hv⟩
    obtain ⟨⟨a, s⟩, b, t⟩ := k
    simp only at horig hzip hv
    subst horig
    subst hv
    have hsrc : s ∈ sortInts (groupTimes nodes a) := (List.of_mem_zip hzip).1
    have hkey : (a, s) ∈ keysOf nodes := by
      rw [← mem_groupTimes, ← mem_sortInts]
      exact hsrc
    refine ⟨a, (mem_origsOf nodes a).mpr ⟨s, hkey⟩, ?_⟩
    exact List.mem_map.mpr ⟨(s, t), hzip, rfl⟩

theorem nodup_zip_tail (l : List Int) (h : l.Nodup) : (l.zip l.tail).Nodup := by
  induction l with
  | nil => simp
  | cons a l ih =>
    cases l with
    | nil => simp
    | cons b rest =>
      rw [List.nodup_cons] at h
      have htail : ((b :: rest).zip (b :: rest).tail).Nodup := ih h.2
      rw [List.tail_cons, List.zip_cons_cons, List.nodup_cons]
      refine ⟨?_, htail⟩
      intro hmem
      exact h.1 (List.of_mem_zip hmem).1

theorem nodup_keys_chronoEdges (nodes : NodeMap) (h : (keysOf nodes).Nodup) :
    (keysOf (chronoEdges nodes)).Nodup := by
  rw [keysOf, chronoEdges, List.map_flatMap]
  rw [List.nodup_flatMap]
  constructor
  · intro orig horig
    rw [List.map_map]
    have hg : (sortInts (groupTimes nodes orig)).Nodup :=
      nodup_sortInts _ (nodup_groupTimes nodes orig h)
    have hz := nodup_zip_tail _ hg
    refine List.Nodup.map_on ?_ hz
    intro x hx y hy hxy
    simp only [Function.comp] at hxy
    rw [Prod.mk.injEq, Prod.mk.injEq, Prod.mk.injEq] at hxy
    rw [Prod.ext_iff]
    exact ⟨hxy.1.2, hxy.2.2⟩
  · have hnd := nodup_firstDedup (nodes.map (fun kv => kv.1.1))
    rw [origsOf]
    refine List.Pairwise.imp ?_ hnd
    intro o1 o2 hne x hx1 hx2
    rcases List.mem_map.mp hx1 with ⟨st1, hst1, heq1⟩
    rcases List.mem_map.mp hst1 with ⟨p1, hp1, hep1⟩
    rcases List.mem_map.mp hx2 with ⟨st2, hst2, heq2⟩
    rcases List.mem_map.mp hst2 with ⟨p2, hp2, hep2⟩
    apply hne
    have e1 : x.1.1 = o1 := by
      rw [← heq1, ← hep1]
    have e2 : x.1.1 = o2 := by
      rw [← heq2, ← hep2]
    exact e1.symm.trans e2

theorem alookup_chronoEdges (nodes : NodeMap) (k : EKey) :
    alookup (chronoEdges nodes) k =
      if chronoCond nodes k then some (k.2.2 - k.1.2, none) else none := by
  by_cases hc : chronoCond nodes k
  · rw [if_pos hc]
    cases halo : alookup (chronoEdges nodes) k with
    | some v =>
      have hmem := mem_of_alookup_eq_some _ _ _ halo
      have := (mem_chronoEdges nodes k v).mp hmem
      rw [this.2]
    | none =>
      have hmem : (k, (k.2.2 - k.1.2, (none : Option String))) ∈ chronoEdges nodes :=
        (mem_chronoEdges nodes k _).mpr ⟨hc, rfl⟩
      have hkey : k ∈ keysOf (chronoEdges nodes) :=
        List.mem_map.mpr ⟨_, hmem, rfl⟩
      have := (isSome_alookup (chronoEdges nodes) k).mpr hkey
      rw [halo] at this
      exact Bool.noConfusion this
  · rw [if_neg hc]
    cases halo : alookup (chronoEdges nodes) k with
    | some v =>
      have hmem := mem_of_alookup_eq_some _ _ _ halo
      exact absurd ((mem_chronoEdges nodes k v).mp hmem).1 hc
    | none => rfl

theorem find?_gt_spec (l : List Int) (hs : l.Pairwise (· ≤ ·)) (a b : Int)
    (h : l.find? (fun t => decide (a < t)) = some b) :
    b ∈ l ∧ a < b ∧ ∀ c ∈ l, a < c → b ≤ c := by
  induction l with
  | nil => exact Option.noConfusion h
  | cons x xs ih =>
    rw [List.pairwise_cons] at hs
    by_cases hpx : a < x
    · have hpt : (fun t => decide (a < t)) x = true := decide_eq_true hpx
      rw [List.find?_cons_of_pos xs hpt] at h
      rcases Option.some.inj h with rfl
      refine ⟨List.mem_cons_self _ _, hpx, ?_⟩
      intro c hc _
      rcases List.mem_cons.mp hc with rfl | hc2
      · exact le_refl _
      · exact hs.1 c hc2
    · have hpf : ¬ (fun t => decide (a < t)) x = true := by
        simpa using hpx
      rw [List.find?_cons_of_neg xs hpf] at h
      have hres := ih hs.2 h
      refine ⟨List.mem_cons_of_mem x hres.1, hres.2.1, ?_⟩
      intro c hc hac
      rcases List.mem_cons.mp hc with rfl | hc2
      · exact absurd hac hpx
      · exact hres.2.2 c hc2 hac

theorem find?_gt_none_iff (l : List Int) (a : Int) :
    l.find? (fun t => decide (a < t)) = none ↔ ∀ c ∈ l, ¬ a < c := by
  rw [List.find?_eq_none]
  constructor
  · intro h c hc
    have := h c hc
    rw [decide_eq_true_eq] at this
    exact this
  · intro h c hc
    rw [decide_eq_true_eq]
    exact h c hc

theorem alookup_causalFold (nodes : NodeMap) (u v : String) (uts : List Int)
    (acc : EdgeMap) (k : EKey) :
    alookup (uts.foldl (fun a ut =>
      match (sortInts (groupTimes nodes v)).find? (fun vt => decide (ut < vt)) with
      | some vt => upsertA a ((u, ut), (v, vt)) (vt - ut, some "assembly-component")
      | none => a) acc) k =
      if k.1.1 = u ∧ k.2.1 = v ∧ k.1.2 ∈ uts ∧
          (sortInts (groupTimes nodes v)).find? (fun t => decide (k.1.2 < t)) = some k.2.2
      then some (k.2.2 - k.1.2, some "assembly-component")
      else alookup acc k := by
  obtain ⟨⟨ka, ks⟩, kb, kt⟩ := k
  induction uts generalizing acc with
  | nil => simp
  | cons ut uts ih =>
    rw [List.foldl_cons, ih]
    by_cases hrest : ks ∈ uts
    · by_cases hcond : ka = u ∧ kb = v ∧
          (sortInts (groupTimes nodes v)).find? (fun t => decide (ks < t)) = some kt
      · rw [if_pos ⟨hcond.1, hcond.2.1, hrest, hcond.2.2⟩,
          if_pos ⟨hcond.1, hcond.2.1, List.mem_cons_of_mem ut hrest, hcond.2.2⟩]
      · have hno1 : ¬ (ka = u ∧ kb = v ∧ ks ∈ uts ∧
            (sortInts (groupTimes nodes v)).find? (fun t => decide (ks < t)) = some kt) := by
          rintro ⟨h1, h2, _, h4⟩
          exact hcond ⟨h1, h2, h4⟩
        have hno2 : ¬ (ka = u ∧ kb = v ∧ ks ∈ ut :: uts ∧
            (sortInts (groupTimes nodes v)).find? (fun t => decide (ks < t)) = some kt) := by
          rintro ⟨h1, h2, _, h4⟩
          exact hcond ⟨h1, h2, h4⟩
        rw [if_neg hno1, if_neg hno2]
        cases hf : (sortInts (groupTimes nodes v)).find? (fun vt => decide (ut < vt)) with
        | some vt =>
          rw [alookup_upsertA]
          have hne : ¬ (((ka, ks), kb, kt) = ((u, ut), v, vt)) := by
            intro heq
            rw [Prod.mk.injEq, Prod.mk.injEq, Prod.mk.injEq] at heq
            obtain ⟨⟨h1, h2⟩, h3, h4⟩ := heq
            subst h2
            exact hcond ⟨h1, h3, by rw [hf, h4]⟩
          rw [if_neg hne]
        | none => rfl
    · by_cases hcond : ka = u ∧ kb = v ∧ ks = ut ∧
          (sortInts (groupTimes nodes v)).find? (fun t => decide (ks < t)) = some kt
      · obtain ⟨h1, h2, h3, h4⟩ := hcond
        have hno1 : ¬ (ka = u ∧ kb = v ∧ ks ∈ uts ∧
            (sortInts (groupTimes nodes v)).find? (fun t => decide (ks < t)) = some kt) := by
          rintro ⟨_, _, hmem, _⟩
          exact hrest hmem
        rw [if_neg hno1,
          if_pos ⟨h1, h2, by rw [h3]; exact List.mem_cons_self _ _, h4⟩]
        subst h3
        rw [show (sortInts (groupTimes nodes v)).find? (fun vt => decide (ks < vt)) =
            some kt from h4]
        rw [alookup_upsertA]
        subst h1
        subst h2
        rw [if_pos rfl]
      · have hno1 : ¬ (ka = u ∧ kb = v ∧ ks ∈ uts ∧
            (sortInts (groupTimes nodes v)).find? (fun t => decide (ks < t)) = some kt) := by
          rintro ⟨_, _, hmem, _⟩
          exact hrest hmem
        have hno2 : ¬ (ka = u ∧ kb = v ∧ ks ∈ ut :: uts ∧
            (sortInts (groupTimes nodes v)).find? (fun t => decide (ks < t)) = some kt) := by
          rintro ⟨h1, h2, hmem, h4⟩
          rcases List.mem_cons.mp hmem with h3 | h3
          · exact hcond ⟨h1, h2, h3, h4⟩
          · exact hrest h3
        rw [if_neg hno1, if_neg hno2]
        cases hf : (sortInts (groupTimes nodes v)).find? (fun vt => decide (ut < vt)) with
        | some vt =>
          rw [alookup_upsertA]
          have hne : ¬ (((ka, ks), kb, kt) = ((u, ut), v, vt)) := by
            intro heq
            rw [Prod.mk.injEq, Prod.mk.injEq, Prod.mk.injEq] at heq
            obtain ⟨⟨h1, h2⟩, h3, h4⟩ := heq
            exact hcond ⟨h1, h3, h2, by rw [h2, hf, h4]⟩
          rw [if_neg hne]
        | none => rfl

theorem alookup_causalForEdge (nodes : NodeMap) (acc : EdgeMap) (u v : String) (k : EKey) :
    alookup (causalForEdge nodes acc (u, v)) k =
      if k.1.1 = u ∧ k.2.1 = v ∧ k.1.2 ∈ sortInts (groupTimes nodes u) ∧
          (sortInts (groupTimes nodes v)).find? (fun t => decide (k.1.2 < t)) = some k.2.2
      then some (k.2.2 - k.1.2, some "assembly-component")
      else alookup acc k :=
  alookup_causalFold nodes u v (sortInts (groupTimes nodes u)) acc k

theorem alookup_causalPhase (nodes : NodeMap) (pedges : List (String × String))
    (init : EdgeMap) (k : EKey) :
    alookup (causalPhase nodes pedges init) k =
      if causalCond nodes pedges k
      then some (k.2.2 - k.1.2, some "assembly-component")
      else alookup init k := by
  induction pedges generalizing init with
  | nil =>
    rw [causalPhase, List.foldl_nil]
    have hno : ¬ causalCond nodes [] k := by
      rintro ⟨hmem, _⟩
      exact absurd hmem (List.not_mem_nil _)
    rw [if_neg hno]
  | cons uv rest ih =>
    obtain ⟨u, v⟩ := uv
    rw [causalPhase, List.foldl_cons]
    rw [show List.foldl (causalForEdge nodes) (causalForEdge nodes init (u, v)) rest =
      causalPhase nodes rest (causalForEdge nodes init (u, v)) from rfl]
    rw [ih]
    by_cases hrest : causalCond nodes rest k
    · rw [if_pos hrest]
      have : causalCond nodes ((u, v) :: rest) k :=
        ⟨List.mem_cons_of_mem _ hrest.1, hrest.2⟩
      rw [if_pos this]
    · rw [if_neg hrest, alookup_causalForEdge]
      by_cases hstep : k.1.1 = u ∧ k.2.1 = v ∧ k.1.2 ∈ sortInts (groupTimes nodes u) ∧
          (sortInts (groupTimes nodes v)).find? (fun t => decide (k.1.2 < t)) = some k.2.2
      · rw [if_pos hstep]
        have : causalCond nodes ((u, v) :: rest) k := by
          refine ⟨?_, ?_, ?_⟩
          · rw [List.mem_cons, Prod.ext_iff]
            exact Or.inl ⟨hstep.1, hstep.2.1⟩
          · rw [hstep.1]
            exact hstep.2.2.1
          · rw [hstep.2.1]
            exact hstep.2.2.2
        rw [if_pos this]
      · rw [if_neg hstep]
        have : ¬ causalCond nodes ((u, v) :: rest) k := by
          rintro ⟨hmem, h2, h3⟩
          rcases List.mem_cons.mp hmem with heq | hmem2
          · rw [Prod.mk.injEq] at heq
            apply hstep
            refine ⟨heq.1, heq.2, ?_, ?_⟩
            · rw [← heq.1]
              exact h2
            · rw [← heq.2]
              exact h3
          · exact hrest ⟨hmem2, h2, h3⟩
        rw [if_neg this]

/-- Master characterisation of the time-space network's edge map: an edge
key stores the causal attributes when the causal pass writes it (its
original pair is a product-graph edge and its target time is the first
strictly later time of the target group), otherwise the chronological
attributes when the two ends are time-adjacent nodes of one original node,
and otherwise nothing.  A causal write overwrites a chronological edge with
the same endpoints (self-loop product edges). -/
theorem alookup_tsn_edges (pedges : List (String × String)) (events : List Event)
    (k : EKey) :
    alookup (create_time_space_network pedges events).edges k =
      if causalCond (tsnNodes events) pedges k
      then some (k.2.2 - k.1.2, some "assembly-component")
      else if chronoCond (tsnNodes events) k
      then some (k.2.2 - k.1.2, none)
      else none := by
  rw [show (create_time_space_network pedges events).edges =
    causalPhase (tsnNodes events) pedges (chronoEdges (tsnNodes events)) from rfl]
  rw [alookup_causalPhase, alookup_chronoEdges]

theorem nodup_keys_causalForEdge (nodes : NodeMap) (acc : EdgeMap) (uv : String × String)
    (h : (keysOf acc).Nodup) : (keysOf (causalForEdge nodes acc uv)).Nodup := by
  rw [causalForEdge]
  generalize sortInts (groupTimes nodes uv.1) = uts
  induction uts generalizing acc with
  | nil => exact h
  | cons ut uts ih =>
    rw [List.foldl_cons]
    refine ih _ ?_
    cases (sortInts (groupTimes nodes uv.2)).find? (fun vt => decide (ut < vt)) with
    | some vt => exact nodup_keys_upsertA _ _ _ h
    | none => exact h

theorem nodup_keys_tsn_edges (pedges : List (String × String)) (events : List Event) :
    (keysOf (create_time_space_network pedges events).edges).Nodup := by
  rw [show (create_time_space_network pedges events).edges =
    causalPhase (tsnNodes events) pedges (chronoEdges (tsnNodes events)) from rfl]
  have hinit : (keysOf (chronoEdges (tsnNodes events))).Nodup :=
    nodup_keys_chronoEdges _ (nodup_keys_tsnNodes events)
  rw [causalPhase]
  generalize chronoEdges (tsnNodes events) = init at hinit
  induction pedges generalizing init with
  | nil => exact hinit
  | cons uv rest ih =>
    rw [List.foldl_cons]
    exact ih _ (nodup_keys_causalForEdge _ _ _ hinit)

theorem mem_tsn_edges (pedges : List (String × String)) (events : List Event) (k : EKey)
    (v : Int × Option String) :
    (k, v) ∈ (create_time_space_network pedges events).edges ↔
      alookup (create_time_space_network pedges events).edges k = some v :=
  mem_iff_alookup _ _ _ (nodup_keys_tsn_edges pedges events)

/-- C4.  Chronological chaining: each original node's group of time-space
nodes, sorted ascending (a permutation of the group with non-decreasing
times), is linked along consecutive pairs by an edge with lead time equal
to the (non-negative) time difference; a group with at most one node
produces no edge between nodes of that original node at all. -/
theorem claim_c4_chronological_chaining (pedges : List (String × String))
    (events : List Event) (n : String) :
    (List.Perm (sortInts (groupTimes (tsnNodes events) n)) (groupTimes (tsnNodes events) n) ∧
      (sortInts (groupTimes (tsnNodes events) n)).Pairwise (· ≤ ·)) ∧
    (∀ s t : Int, (s, t) ∈ (sortInts (groupTimes (tsnNodes events) n)).zip
        (sortInts (groupTimes (tsnNodes events) n)).tail →
      0 ≤ t - s ∧ ∃ r, alookup (create_time_space_network pedges events).edges
        ((n, s), (n, t)) = some (t - s, r)) ∧
    ((sortInts (groupTimes (tsnNodes events) n)).length ≤ 1 →
      ∀ s t : Int,
        alookup (create_time_space_network pedges events).edges ((n, s), (n, t)) = none) := by
  refine ⟨⟨perm_sortInts _, pairwise_le_sortInts _⟩, ?_, ?_⟩
  · intro s t hzip
    have hle : s ≤ t :=
      pairwise_of_mem_zip_tail (· ≤ ·) _ (pairwise_le_sortInts _) s t hzip
    refine ⟨by omega, ?_⟩
    rw [alookup_tsn_edges]
    by_cases hca : causalCond (tsnNodes events) pedges ((n, s), (n, t))
    · rw [if_pos hca]
      exact ⟨some "assembly-component", rfl⟩
    · rw [if_neg hca, if_pos ⟨rfl, hzip⟩]
      exact ⟨none, rfl⟩
  · intro hlen s t
    rw [alookup_tsn_edges]
    have htail : (sortInts (groupTimes (tsnNodes events) n)).tail = [] := by
      cases hg : sortInts (groupTimes (tsnNodes events) n) with
      | nil => rfl
      | cons a g2 =>
        rw [hg] at hlen
        cases g2 with
        | nil => rfl
        | cons b g3 => simp at hlen
    have hch : ¬ chronoCond (tsnNodes events) ((n, s), (n, t)) := by
      rintro ⟨_, hzip⟩
      simp only at hzip
      rw [htail, List.zip_nil_right] at hzip
      exact absurd hzip (List.not_mem_nil _)
    have hca : ¬ causalCond (tsnNodes events) pedges ((n, s), (n, t)) := by
      rintro ⟨_, hsrc, hfind⟩
      simp only at hsrc hfind
      have hspec := find?_gt_spec _ (pairwise_le_sortInts _) s t hfind
      cases hg : sortInts (groupTimes (tsnNodes events) n) with
      | nil =>
        rw [hg] at hsrc
        exact absurd hsrc (List.not_mem_nil _)
      | cons a g2 =>
        have hg2 : g2 = [] := by
          rw [hg] at hlen
          cases g2 with
          | nil => rfl
          | cons b g3 => simp at hlen
        rw [hg, hg2] at hsrc
        rw [hg, hg2] at hspec
        rcases List.mem_singleton.mp hsrc with rfl
        rcases List.mem_singleton.mp hspec.1 with rfl
        exact absurd hspec.2.1 (lt_irrefl _)
    rw [if_neg hca, if_neg hch]

theorem claim_c4_chronological_chaining_witness :
    ((0 : Int) ≤ 5 - 0 ∧ ∃ r, alookup (create_time_space_network [("A", "B")]
        [⟨"A", 0, "start"⟩, ⟨"A", 5, "complete"⟩, ⟨"B", 6, "start"⟩]).edges
      (("A", 0), ("A", 5)) = some (5 - 0, r)) ∧
    alookup (create_time_space_network [("A", "B")]
        [⟨"A", 0, "start"⟩, ⟨"A", 5, "complete"⟩, ⟨"B", 6, "start"⟩]).edges
      (("B", 0), ("B", 6)) = none :=
  ⟨(claim_c4_chronological_chaining [("A", "B")]
      [⟨"A", 0, "start"⟩, ⟨"A", 5, "complete"⟩, ⟨"B", 6, "start"⟩] "A").2.1 0 5 (by decide),
   (claim_c4_chronological_chaining [("A", "B")]
      [⟨"A", 0, "start"⟩, ⟨"A", 5, "complete"⟩, ⟨"B", 6, "start"⟩] "B").2.2 (by decide) 0 6⟩

/-- C6.  Every edge of the time-space network has non-negative lead time
equal to the target minus source time; every causal edge (one carrying
`relationship = "assembly-component"`) joins originals forming a product
edge, has target time strictly greater than source time, and strictly
positive lead time; and no causal edge leaves a source-node when the target
group has no strictly later time. -/
theorem claim_c6_causal_strict_precedence (pedges : List (String × String))
    (events : List Event) :
    (∀ k : EKey, ∀ lead : Int, ∀ rel : Option String,
      (k, (lead, rel)) ∈ (create_time_space_network pedges events).edges →
        (0 ≤ lead ∧ lead = k.2.2 - k.1.2 ∧
          (rel = some "assembly-component" →
            ((k.1.1, k.2.1) ∈ pedges ∧ k.1.2 < k.2.2 ∧ 0 < lead)))) ∧
    (∀ u v : String, ∀ ut : Int,
      (∀ vt ∈ groupTimes (tsnNodes events) v, ¬ ut < vt) →
      ∀ vt : Int, ∀ val : Int × Option String,
        (((u, ut), (v, vt)), val) ∈ (create_time_space_network pedges events).edges →
          val.2 ≠ some "assembly-component") := by
  constructor
  · intro k lead rel hmem
    have hlook := (mem_tsn_edges pedges events k (lead, rel)).mp hmem
    rw [alookup_tsn_edges] at hlook
    by_cases hca : causalCond (tsnNodes events) pedges k
    · rw [if_pos hca] at hlook
      have hval := Option.some.inj hlook
      rw [Prod.mk.injEq] at hval
      obtain ⟨hlead, hrel⟩ := hval
      obtain ⟨hp, hsrc, hfind⟩ := hca
      have hspec := find?_gt_spec _ (pairwise_le_sortInts _) _ _ hfind
      have hlt : k.1.2 < k.2.2 := hspec.2.1
      refine ⟨by omega, hlead.symm, fun _ => ⟨hp, hlt, by omega⟩⟩
    · rw [if_neg hca] at hlook
      by_cases hch : chronoCond (tsnNodes events) k
      · rw [if_pos hch] at hlook
        have hval := Option.some.inj hlook
        rw [Prod.mk.injEq] at hval
        obtain ⟨hlead, hrel⟩ := hval
        have hle : k.1.2 ≤ k.2.2 :=
          pairwise_of_mem_zip_tail (· ≤ ·) _ (pairwise_le_sortInts _) _ _ hch.2
        refine ⟨by omega, hlead.symm, ?_⟩
        intro habs
        rw [← hrel] at habs
        exact absurd habs (by simp)
      · rw [if_neg hch] at hlook
        exact Option.noConfusion hlook
  · intro u v ut hno vt val hmem
    have hlook := (mem_tsn_edges pedges events ((u, ut), (v, vt)) val).mp hmem
    rw [alookup_tsn_edges] at hlook
    by_cases hca : causalCond (tsnNodes events) pedges ((u, ut), (v, vt))
    · exfalso
      obtain ⟨_, _, hfind⟩ := hca
      simp only at hfind
      have hspec := find?_gt_spec _ (pairwise_le_sortInts _) _ _ hfind
      have hvt : vt ∈ groupTimes (tsnNodes events) v := (mem_sortInts _ _).mp hspec.1
      exact hno vt hvt hspec.2.1
    · rw [if_neg hca] at hlook
      by_cases hch : chronoCond (tsnNodes events) ((u, ut), (v, vt))
      · rw [if_pos hch] at hlook
        have hval := Option.some.inj hlook
        rw [← hval]
        intro habs
        exact absurd habs (by simp)
      · rw [if_neg hch] at hlook
        exact Option.noConfusion hlook

theorem claim_c6_causal_strict_precedence_witness :
    (0 : Int) ≤ 6 ∧ (6 : Int) = ((("A", 0), ("B", 6)) : EKey).2.2 - ((("A", 0), ("B", 6)) : EKey).1.2 ∧
      (some "assembly-component" = some "assembly-component" →
        ((("A", "B") ∈ [("A", "B")]) ∧
          ((("A", 0), ("B", 6)) : EKey).1.2 < ((("A", 0), ("B", 6)) : EKey).2.2 ∧ (0 : Int) < 6)) :=
  (claim_c6_causal_strict_precedence [("A", "B")]
      [⟨"A", 0, "start"⟩, ⟨"A", 5, "complete"⟩, ⟨"B", 6, "start"⟩]).1
    (("A", 0), ("B", 6)) 6 (some "assembly-component") (by decide)

/-- Scenario C event list from the spec. -/
def scenarioC : List Event :=
  [⟨"A", 0, "start"⟩, ⟨"A", 5, "complete"⟩, ⟨"B", 6, "start"⟩]

/-- C1.  For every product edge (u, v) and every time-space node of u, the
network contains exactly one causal edge from that node, and it points to
the earliest time-space node of v with strictly greater time (none when no
such node exists); the search is per source node, so Scenario C yields both
A_0 -> B_6 (lead 6) and A_5 -> B_6 (lead 1), each with
relationship = "assembly-component". -/
theorem claim_c1_causal_fanout :
    (∀ (pedges : List (String × String)) (events : List Event) (u v : String) (ut : Int),
      (u, v) ∈ pedges →
      ut ∈ sortInts (groupTimes (tsnNodes events) u) →
      (∀ vt0 : Int, (sortInts (groupTimes (tsnNodes events) v)).find?
          (fun t => decide (ut < t)) = some vt0 →
        (vt0 ∈ groupTimes (tsnNodes events) v ∧ ut < vt0 ∧
          (∀ vt ∈ groupTimes (tsnNodes events) v, ut < vt → vt0 ≤ vt) ∧
          (∀ vt lead : Int, ((((u, ut), (v, vt)), (lead, some "assembly-component")) ∈
              (create_time_space_network pedges events).edges ↔
            (vt = vt0 ∧ lead = vt0 - ut))))) ∧
      (((sortInts (groupTimes (tsnNodes events) v)).find?
          (fun t => decide (ut < t)) = none) →
        ∀ vt lead : Int, ¬ ((((u, ut), (v, vt)), (lead, some "assembly-component")) ∈
          (create_time_space_network pedges events).edges)) ∧
      (((sortInts (groupTimes (tsnNodes events) v)).find?
          (fun t => decide (ut < t)) = none) ↔
        ∀ vt ∈ groupTimes (tsnNodes events) v, ¬ ut < vt)) ∧
    create_time_space_network [("A", "B")] scenarioC =
      ⟨[(("A", 0), "start"), (("A", 5), "complete"), (("B", 6), "start")],
       [((("A", 0), ("A", 5)), (5, none)),
        ((("A", 0), ("B", 6)), (6, some "assembly-component")),
        ((("A", 5), ("B", 6)), (1, some "assembly-component"))]⟩ := by
  constructor
  · intro pedges events u v ut hp hut
    refine ⟨?_, ?_, ?_⟩
    · intro vt0 hfind
      have hspec := find?_gt_spec _ (pairwise_le_sortInts _) _ _ hfind
      refine ⟨(mem_sortInts _ _).mp hspec.1, hspec.2.1, ?_, ?_⟩
      · intro vt hvt hlt
        exact hspec.2.2 vt ((mem_sortInts _ _).mpr hvt) hlt
      · intro vt lead
        rw [mem_tsn_edges, alookup_tsn_edges]
        constructor
        · intro hlook
          by_cases hca : causalCond (tsnNodes events) pedges ((u, ut), (v, vt))
          · rw [if_pos hca] at hlook
            obtain ⟨_, _, hfind2⟩ := hca
            simp only at hfind2
            rw [hfind] at hfind2
            have hvt0 : vt0 = vt := Option.some.inj hfind2
            have hval := Option.some.inj hlook
            rw [Prod.mk.injEq] at hval
            refine ⟨hvt0.symm, ?_⟩
            rw [← hval.1, ← hvt0]
          · rw [if_neg hca] at hlook
            by_cases hch : chronoCond (tsnNodes events) ((u, ut), (v, vt))
            · rw [if_pos hch] at hlook
              have hval := Option.some.inj hlook
              rw [Prod.mk.injEq] at hval
              exact absurd hval.2 (by simp)
            · rw [if_neg hch] at hlook
              exact Option.noConfusion hlook
        · rintro ⟨heq1, heq2⟩
          rw [heq1, heq2]
          have hca : causalCond (tsnNodes events) pedges ((u, ut), (v, vt0)) :=
            ⟨hp, hut, hfind⟩
          rw [if_pos hca]
    · intro hnone vt lead hmem
      rw [mem_tsn_edges, alookup_tsn_edges] at hmem
      by_cases hca : causalCond (tsnNodes events) pedges ((u, ut), (v, vt))
      · obtain ⟨_, _, hfind2⟩ := hca
        simp only at hfind2
        rw [hnone] at hfind2
        exact Option.noConfusion hfind2
      · rw [if_neg hca] at hmem
        by_cases hch : chronoCond (tsnNodes events) ((u, ut), (v, vt))
        · rw [if_pos hch] at hmem
          have hval := Option.some.inj hmem
          rw [Prod.mk.injEq] at hval
          exact absurd hval.2 (by simp)
        · rw [if_neg hch] at hmem
          exact Option.noConfusion hmem
    · rw [find?_gt_none_iff]
      constructor
      · intro h vt hvt
        exact h vt ((mem_sortInts _ _).mpr hvt)
      · intro h vt hvt
        exact h vt ((mem_sortInts _ _).mp hvt)
  · rfl

theorem claim_c1_causal_fanout_witness :
    ((("A", 0), ("B", 6)), ((6 : Int), some "assembly-component")) ∈
      (create_time_space_network [("A", "B")] scenarioC).edges ↔
      ((6 : Int) = 6 ∧ (6 : Int) = 6 - 0) :=
  ((claim_c1_causal_fanout.1 [("A", "B")] scenarioC "A" "B" 0 (by decide)
      (by decide)).1 6 (by decide)).2.2.2 6 6

/-- C5.  Time-space nodes are keyed by the (node, time) pair: keys are
unique, a key is present exactly when some event carries it, and the stored
event type is that of the last event with that key in input order (the
stable time sort keeps equal-time events in input order, so the last
processed event for a key is the last one in the input); Scenario D
collapses two equal-key events into one node labelled "restart". -/
theorem claim_c5_node_collapse :
    (∀ pedges : List (String × String), ∀ events : List Event,
      (create_time_space_network pedges events).nodes = tsnNodes events) ∧
    (∀ events : List Event,
      (keysOf (tsnNodes events)).Nodup ∧
      (∀ n : String, ∀ t : Int,
        alookup (tsnNodes events) (n, t) =
          match lastMatch (keyMatch (n, t)) events with
          | some e => some e.event_type
          | none => none) ∧
      (∀ k : String × Int, k ∈ keysOf (tsnNodes events) ↔
        ∃ e ∈ events, (e.node, e.time) = k)) ∧
    tsnNodes [⟨"A", 3, "start"⟩, ⟨"A", 3, "restart"⟩] = [(("A", 3), "restart")] := by
  refine ⟨fun pedges events => rfl, fun events => ⟨nodup_keys_tsnNodes events, ?_, ?_⟩, rfl⟩
  · intro n t
    exact alookup_tsnNodes events (n, t)
  · intro k
    exact mem_keys_tsnNodes events k

theorem find?_adjacent (g : List Int) (hs : g.Pairwise (· < ·)) (s t : Int)
    (h : (s, t) ∈ g.zip g.tail) : g.find? (fun x => decide (s < x)) = some t := by
  induction g with
  | nil => simp at h
  | cons x xs ih =>
    cases xs with
    | nil => simp at h
    | cons y ys =>
      rw [List.tail_cons, List.zip_cons_cons] at h
      rw [List.pairwise_cons] at hs
      rcases List.mem_cons.mp h with heq | h2
      · rw [Prod.mk.injEq] at heq
        obtain ⟨rfl, rfl⟩ := heq
        have h1 : ¬ (fun x2 => decide (s < x2)) s = true := by
          simp
        rw [List.find?_cons_of_neg (t :: ys) h1]
        have h2p : (fun x2 => decide (s < x2)) t = true :=
          decide_eq_true (hs.1 t (List.mem_cons_self _ _))
        rw [List.find?_cons_of_pos ys h2p]
      · have hxlt : x < s := hs.1 s (List.of_mem_zip h2).1
        have h1 : ¬ (fun x2 => decide (s < x2)) x = true := by
          simp
          exact le_of_lt hxlt
        rw [List.find?_cons_of_neg (y :: ys) h1]
        exact ih hs.2 h2

/-- C7 counterexample.  With the self-loop product edge (A, A) and two A
events, the edge A_0 -> A_1 links two consecutive time-space nodes of the
same original node (a chronological edge in the claim's sense), yet it
carries `relationship = "assembly-component"`: the causal pass overwrote
the chronological edge's attributes. -/
theorem claim_c7_counterexample :
    chronoCond (tsnNodes [⟨"A", 0, "s"⟩, ⟨"A", 1, "u"⟩]) (("A", 0), ("A", 1)) ∧
    ((((("A", 0) : String × Int), (("A", 1) : String × Int)),
        ((1 : Int), some "assembly-component")) ∈
      (create_time_space_network [("A", "A")] [⟨"A", 0, "s"⟩, ⟨"A", 1, "u"⟩]).edges) := by
  constructor
  · exact ⟨rfl, by decide⟩
  · decide

/-- C7 as amended.  If the product graph has no self-loop edge, the
relationship attribute is present exactly on the causal edges: an edge
whose two originals differ carries `relationship = "assembly-component"`
and an edge within one original node carries none.  A self-loop (u, u)
instead makes the chronological edge between consecutive u-nodes coincide
with a causal edge, which then carries the relationship attribute. -/
theorem claim_c7_relationship_marking :
    (∀ (pedges : List (String × String)) (events : List Event),
      (∀ uv ∈ pedges, uv.1 ≠ uv.2) →
      ∀ k : EKey, ∀ lead : Int, ∀ rel : Option String,
        (k, (lead, rel)) ∈ (create_time_space_network pedges events).edges →
          ((k.1.1 = k.2.1 → rel = none) ∧
            (k.1.1 ≠ k.2.1 → rel = some "assembly-component"))) ∧
    (∀ (pedges : List (String × String)) (events : List Event) (u : String),
      (u, u) ∈ pedges →
      ∀ s t : Int, (s, t) ∈ (sortInts (groupTimes (tsnNodes events) u)).zip
          (sortInts (groupTimes (tsnNodes events) u)).tail →
        alookup (create_time_space_network pedges events).edges ((u, s), (u, t)) =
          some (t - s, some "assembly-component")) := by
  constructor
  · intro pedges events hnoself k lead rel hmem
    have hlook := (mem_tsn_edges pedges events k (lead, rel)).mp hmem
    rw [alookup_tsn_edges] at hlook
    by_cases hca : causalCond (tsnNodes events) pedges k
    · rw [if_pos hca] at hlook
      have hval := Option.some.inj hlook
      rw [Prod.mk.injEq] at hval
      constructor
      · intro hsame
        exfalso
        have hne := hnoself (k.1.1, k.2.1) hca.1
        exact hne hsame
      · intro _
        exact hval.2.symm
    · rw [if_neg hca] at hlook
      by_cases hch : chronoCond (tsnNodes events) k
      · rw [if_pos hch] at hlook
        have hval := Option.some.inj hlook
        rw [Prod.mk.injEq] at hval
        constructor
        · intro _
          exact hval.2.symm
        · intro hdiff
          exact absurd hch.1 hdiff
      · rw [if_neg hch] at hlook
        exact Option.noConfusion hlook
  · intro pedges events u hp s t hzip
    rw [alookup_tsn_edges]
    have hsorted : (sortInts (groupTimes (tsnNodes events) u)).Pairwise (· < ·) :=
      pairwise_lt_sortInts _ (nodup_groupTimes _ _ (nodup_keys_tsnNodes events))
    have hca : causalCond (tsnNodes events) pedges ((u, s), (u, t)) :=
      ⟨hp, (List.of_mem_zip hzip).1, find?_adjacent _ hsorted s t hzip⟩
    rw [if_pos hca]

theorem claim_c7_relationship_marking_witness :
    (("A" = "A" → (none : Option String) = none) ∧
      ("A" ≠ "A" → (none : Option String) = some "assembly-component")) :=
  claim_c7_relationship_marking.1 [("A", "B")] scenarioC (by decide)
    (("A", 0), ("A", 5)) 5 none (by decide)

/-- C9.  An event whose node is not an endpoint of any product-graph edge
is still accepted: its time-space node is created, it takes part in its
original node's (sorted) chronological group, and no causal edge has it as
source or target. -/
theorem claim_c9_event_outside_graph (pedges : List (String × String))
    (events : List Event) (e : Event) (he : e ∈ events)
    (hout : ∀ uv ∈ pedges, uv.1 ≠ e.node ∧ uv.2 ≠ e.node) :
    (e.node, e.time) ∈ keysOf ((create_time_space_network pedges events).nodes) ∧
    e.time ∈ sortInts (groupTimes (tsnNodes events) e.node) ∧
    (∀ k : EKey, ∀ lead : Int,
      (k, (lead, some "assembly-component")) ∈
          (create_time_space_network pedges events).edges →
        k.1.1 ≠ e.node ∧ k.2.1 ≠ e.node) := by
  refine ⟨?_, ?_, ?_⟩
  · exact (mem_keys_tsnNodes events (e.node, e.time)).mpr ⟨e, he, rfl⟩
  · rw [mem_sortInts, mem_groupTimes]
    exact (mem_keys_tsnNodes events (e.node, e.time)).mpr ⟨e, he, rfl⟩
  · intro k lead hmem
    have hlook := (mem_tsn_edges pedges events k (lead, some "assembly-component")).mp hmem
    rw [alookup_tsn_edges] at hlook
    by_cases hca : causalCond (tsnNodes events) pedges k
    · exact hout (k.1.1, k.2.1) hca.1
    · rw [if_neg hca] at hlook
      by_cases hch : chronoCond (tsnNodes events) k
      · rw [if_pos hch] at hlook
        have hval := Option.some.inj hlook
        rw [Prod.mk.injEq] at hval
        exact absurd hval.2 (by simp)
      · rw [if_neg hch] at hlook
        exact Option.noConfusion hlook

theorem claim_c9_event_outside_graph_witness :
    ("Z", 4) ∈ keysOf ((create_time_space_network [("A", "B")]
      [⟨"A", 0, "start"⟩, ⟨"Z", 4, "w"⟩, ⟨"Z", 9, "w2"⟩]).nodes) ∧
    (4 : Int) ∈ sortInts (groupTimes
      (tsnNodes [⟨"A", 0, "start"⟩, ⟨"Z", 4, "w"⟩, ⟨"Z", 9, "w2"⟩]) "Z") ∧
    (∀ k : EKey, ∀ lead : Int,
      (k, (lead, some "assembly-component")) ∈
          (create_time_space_network [("A", "B")]
            [⟨"A", 0, "start"⟩, ⟨"Z", 4, "w"⟩, ⟨"Z", 9, "w2"⟩]).edges →
        k.1.1 ≠ "Z" ∧ k.2.1 ≠ "Z") :=
  claim_c9_event_outside_graph [("A", "B")]
    [⟨"A", 0, "start"⟩, ⟨"Z", 4, "w"⟩, ⟨"Z", 9, "w2"⟩] ⟨"Z", 4, "w"⟩
    (by decide) (by decide)
